import Mathlib

/-!
Verification development for the tokoro single-threaded coroutine scheduler
(src/tokoro.h). The scheduler, manager, handle and combinator logic is
embedded from src/tokoro.h. The time queue (timequeue.h) and the promise
result protocol (promise.h) are not part of the given sources; those two
pieces are modelled from the specification, as marked in their doc comments.
Time is modelled by rational numbers, coroutine result values by naturals,
and captured exceptions by natural tokens.
-/

namespace Tokoro

/-- Modelled from the spec: an element of the time queue. The queue hands out
stable cursors on insert; seq is the insertion counter that doubles as the
cursor and as the FIFO tie-breaker among equal deadlines. -/
structure TQEntry (α : Type) where
  seq : Nat
  deadline : ℚ
  waiter : α
deriving DecidableEq, Repr

/-- Modelled from the spec: the time queue of one (update-phase, clock) pair
(timequeue.h is not among the given sources). An ordered multiset of
(deadline, waiter) with a two-phase snapshot drain. A deadline of 0 means
ready at the start of the NEXT drain of this queue, before any strictly
positive deadline, so zero-delay waits inserted during a drain are parked in
nextList and only become poppable at the following SetupUpdate. -/
structure TimeQueue (α : Type) where
  nextList : List (TQEntry α) := []
  ready : List (TQEntry α) := []
  timed : List (TQEntry α) := []
  snapNow : ℚ := 0
  nextSeq : Nat := 0
deriving DecidableEq, Repr

/-- Modelled from the spec: ordered insert into the deadline-sorted multiset;
an entry with an equal deadline goes after the existing ones (stable FIFO). -/
def insertTimed {α : Type} (e : TQEntry α) : List (TQEntry α) → List (TQEntry α)
  | [] => [e]
  | x :: xs => if e.deadline < x.deadline then e :: x :: xs else x :: insertTimed e xs

/-- Modelled from the spec: insert returns a stable cursor (the seq number).
Deadline 0 parks the entry for the next drain; a nonzero deadline goes into
the sorted multiset. -/
def TimeQueue.AddTimed {α : Type} (q : TimeQueue α) (deadline : ℚ) (w : α) :
    TimeQueue α × Nat :=
  let e : TQEntry α := ⟨q.nextSeq, deadline, w⟩
  if deadline = 0 then
    ({ q with nextList := q.nextList ++ [e], nextSeq := q.nextSeq + 1 }, q.nextSeq)
  else
    ({ q with timed := insertTimed e q.timed, nextSeq := q.nextSeq + 1 }, q.nextSeq)

/-- Modelled from the spec: snapshot the drain instant and promote the parked
zero-deadline entries so this drain will pop them (in FIFO order, before any
strictly positive deadline). -/
def TimeQueue.SetupUpdate {α : Type} (q : TimeQueue α) (now : ℚ) : TimeQueue α :=
  { q with ready := q.ready ++ q.nextList, nextList := [], snapNow := now }

/-- Modelled from the spec: whether the drain loop has another entry to pop,
i.e. a promoted zero-deadline entry or a timed entry due at the snapshot. -/
def TimeQueue.CheckUpdate {α : Type} (q : TimeQueue α) : Bool :=
  !q.ready.isEmpty ||
    match q.timed with
    | [] => false
    | e :: _ => decide (e.deadline ≤ q.snapNow)

/-- Modelled from the spec: pop the least pending entry of the current drain:
first the promoted zero-deadline entries in FIFO order, then the least timed
entry provided its deadline is at most the snapshot. Entries parked in
nextList are never popped. -/
def TimeQueue.Pop {α : Type} (q : TimeQueue α) : Option (TQEntry α) × TimeQueue α :=
  match q.ready with
  | e :: rest => (some e, { q with ready := rest })
  | [] =>
    match q.timed with
    | e :: rest =>
      if e.deadline ≤ q.snapNow then (some e, { q with timed := rest }) else (none, q)
    | [] => (none, q)

/-- Modelled from the spec: remove by cursor (used by the WaitBP destructor,
src/tokoro.h lines 488-497). -/
def TimeQueue.Remove {α : Type} (q : TimeQueue α) (cursor : Nat) : TimeQueue α :=
  { q with
    nextList := q.nextList.filter (fun e => e.seq != cursor),
    ready := q.ready.filter (fun e => e.seq != cursor),
    timed := q.timed.filter (fun e => e.seq != cursor) }

/-- Every entry currently stored in the queue, in the internal order
nextList, ready, timed. -/
def TimeQueue.pending {α : Type} (q : TimeQueue α) : List (TQEntry α) :=
  q.nextList ++ q.ready ++ q.timed

/-- Fold a list of (deadline, waiter) insertions into the queue. -/
def TimeQueue.AddAll {α : Type} (q : TimeQueue α) (adds : List (ℚ × α)) : TimeQueue α :=
  adds.foldl (fun q2 p => (q2.AddTimed p.1 p.2).1) q

/-- The sequence of entries popped by the drain loop of SchedulerBP::Update
(src/tokoro.h lines 346-351) with the waiters treated as inert, cut off by a
fuel bound. Update resumes waiters exactly in this pop order. -/
def TimeQueue.drainList {α : Type} : Nat → TimeQueue α → List (TQEntry α)
  | 0, _ => []
  | fuel + 1, q =>
    if q.CheckUpdate then
      match q.Pop with
      | (some e, q2) => e :: TimeQueue.drainList fuel q2
      | (none, _) => []
    else []

/-- Drain precedence: strictly earlier deadline, or equal deadline and
earlier insertion (FIFO). -/
def entBefore {α : Type} (a b : TQEntry α) : Prop :=
  a.deadline < b.deadline ∨ (a.deadline = b.deadline ∧ a.seq < b.seq)

/-- The entries a list of insertions produces when the insertion counter
starts at n: the k-th insertion is tagged with seq n + k. -/
def taggedFrom {α : Type} (n : Nat) : List (ℚ × α) → List (TQEntry α)
  | [] => []
  | p :: ps => ⟨n, p.1, p.2⟩ :: taggedFrom (n + 1) ps

/-- Invariants of a queue that is still being filled (no drain started yet):
no promoted entries, the parked list holds exactly the zero-deadline entries
in insertion order, the timed multiset is sorted by drain precedence and free
of zero deadlines, and every stored seq is below the insertion counter. -/
structure TQWF {α : Type} (q : TimeQueue α) : Prop where
  ready_nil : q.ready = []
  next_zero : ∀ e ∈ q.nextList, e.deadline = 0
  next_sorted : q.nextList.Pairwise (fun a b => a.seq < b.seq)
  timed_sorted : q.timed.Pairwise entBefore
  timed_ne : ∀ e ∈ q.timed, e.deadline ≠ 0
  seq_next : ∀ e ∈ q.nextList, e.seq < q.nextSeq
  seq_timed : ∀ e ∈ q.timed, e.seq < q.nextSeq

/-- Modelled from the spec: the contents of a promise (promise.h is not among
the given sources): nothing stored yet, a stored value, or a captured
exception. Values are modelled by naturals, exceptions by natural tokens. -/
inductive PResult where
  | pempty
  | value (v : Nat)
  | error (e : Nat)
deriving DecidableEq, Repr

/-- Modelled from the spec: Promise::GetReturnValue is a destructive one-shot
read. A stored value is moved out once, a captured exception is re-thrown
exactly once, and afterwards (or while nothing is stored) the read yields the
empty signal without throwing. -/
def PResult.GetReturnValue : PResult → Except Nat (Option Nat) × PResult
  | .pempty => (.ok none, .pempty)
  | .value v => (.ok (some v), .pempty)
  | .error e => (.error e, .pempty)

/-- One CoroManager::Entry (src/tokoro.h lines 302-308). coroAlive models
whether the TmplAny coro member still holds the coroutine frame (it is
emptied by coro.Reset() in Stop); hasLambda models whether the captured
closure is still stored; result models the root promise contents. -/
structure Entry where
  running : Bool := true
  released : Bool := false
  hasLambda : Bool := true
  coroAlive : Bool := true
  result : PResult := .pempty
deriving DecidableEq, Repr

/-- Lookup in the id-to-entry association list backing mCoroutines. -/
def lookupEntry : List (Nat × Entry) → Nat → Option Entry
  | [], _ => none
  | p :: ps, id => if p.1 = id then some p.2 else lookupEntry ps id

/-- Replace the entry stored under an id (no effect on other ids). -/
def setEntry : List (Nat × Entry) → Nat → Entry → List (Nat × Entry)
  | [], _, _ => []
  | p :: ps, id, e => if p.1 = id then (id, e) :: setEntry ps id e else p :: setEntry ps id e

/-- Erase the entry stored under an id. -/
def eraseEntry : List (Nat × Entry) → Nat → List (Nat × Entry)
  | [], _ => []
  | p :: ps, id => if p.1 = id then eraseEntry ps id else p :: eraseEntry ps id

/-- The root-owning manager (internal::CoroManager, src/tokoro.h lines
167-314): fresh-id counter, id-to-entry map and the single newly-finished
slot (0 meaning empty). -/
structure CoroManager where
  mNextId : Nat := 1
  mCoroutines : List (Nat × Entry) := []
  mNewFinishedCoro : Nat := 0
deriving DecidableEq, Repr

/-- CoroManager::StopNewFinishedCoro (src/tokoro.h lines 215-230): if the
slot is empty do nothing; otherwise clear the slot, clear the running flag
and the captured closure, and erase the entry iff it was already released. -/
def CoroManager.StopNewFinishedCoro (m : CoroManager) : CoroManager :=
  if m.mNewFinishedCoro = 0 then m
  else
    match lookupEntry m.mCoroutines m.mNewFinishedCoro with
    | none => { m with mNewFinishedCoro := 0 }
    | some e =>
      let e2 : Entry := { e with running := false, hasLambda := false }
      if e.released then
        { m with mNewFinishedCoro := 0,
                 mCoroutines := eraseEntry m.mCoroutines m.mNewFinishedCoro }
      else
        { m with mNewFinishedCoro := 0,
                 mCoroutines := setEntry m.mCoroutines m.mNewFinishedCoro e2 }

/-- CoroManager::Release (src/tokoro.h lines 239-247): mark the entry
released; if it is no longer running, erase it. -/
def CoroManager.Release (m : CoroManager) (id : Nat) : CoroManager :=
  match lookupEntry m.mCoroutines id with
  | none => m
  | some e =>
    if e.running then { m with mCoroutines := setEntry m.mCoroutines id ({ e with released := true }) }
    else { m with mCoroutines := eraseEntry m.mCoroutines id }

/-- CoroManager::IsDown (src/tokoro.h lines 249-254): the negated running
flag (the source asserts the entry exists; a missing entry reports down). -/
def CoroManager.IsDown (m : CoroManager) (id : Nat) : Bool :=
  match lookupEntry m.mCoroutines id with
  | none => true
  | some e => !e.running

/-- CoroManager::Stop (src/tokoro.h lines 256-268) restricted to the entry
flags: if running, clear running, destroy the coroutine frame (coro.Reset())
and drop the captured closure. The queue-side effect of destroying the frame
is modelled at the scheduler level. -/
def CoroManager.Stop (m : CoroManager) (id : Nat) : CoroManager :=
  match lookupEntry m.mCoroutines id with
  | none => m
  | some e =>
    if e.running then
      let e2 : Entry := { e with running := false, coroAlive := false, hasLambda := false }
      { m with mCoroutines := setEntry m.mCoroutines id e2 }
    else m

/-- CoroManager::GetReturn (src/tokoro.h lines 270-287): read the promise of
the stored coroutine frame through the one-shot GetReturnValue. A reset or
absent frame yields the empty signal (modelled from the spec, which makes
take_result return empty on Stopped). -/
def CoroManager.GetReturn (m : CoroManager) (id : Nat) :
    Except Nat (Option Nat) × CoroManager :=
  match lookupEntry m.mCoroutines id with
  | none => (.ok none, m)
  | some e =>
    if e.coroAlive then
      let r := e.result.GetReturnValue
      (r.1, { m with mCoroutines := setEntry m.mCoroutines id ({ e with result := r.2 }) })
    else (.ok none, m)

/-- CoroManager::OnCoroutineFinished (src/tokoro.h lines 289-300): record the
finished root id in the newly-finished slot (the source asserts that the slot
is empty when this happens). -/
def CoroManager.OnCoroutineFinished (m : CoroManager) (id : Nat) : CoroManager :=
  { m with mNewFinishedCoro := id }

/-- One suspended root-coroutine continuation in this development: the owning
root id, the increment the scenario body applies to the external counter at
the next resume, and the remaining (delay, increment) steps of the body after
that resume; an empty rest means the body then runs to co_return. -/
structure Waiter where
  root : Nat
  incr : Nat
  rest : List (ℚ × Nat)
deriving DecidableEq, Repr

/-- SchedulerBP (src/tokoro.h lines 318-420): the manager plus the per
(update-phase, clock) time queues, laid out by TypesToIndex, and the current
reading of each clock (the custom-timer contract: GetCurrentTime reads the
clock of the given time type). -/
structure Scheduler where
  mgr : CoroManager := {}
  queues : List (TimeQueue Waiter) := []
  clockNow : List ℚ := []
  timeCount : Nat := 1
deriving DecidableEq, Repr

/-- SchedulerBP::TypesToIndex (src/tokoro.h lines 358-363). -/
def typesToIndex (timeCount updateType timeType : Nat) : Nat :=
  updateType * timeCount + timeType

/-- SchedulerBP::GetUpdateQueue for a precomputed index. -/
def Scheduler.getQueue (s : Scheduler) (qi : Nat) : TimeQueue Waiter :=
  s.queues.getD qi {}

/-- Store back one queue. -/
def Scheduler.setQueue (s : Scheduler) (qi : Nat) (q : TimeQueue Waiter) : Scheduler :=
  { s with queues := s.queues.set qi q }

/-- SchedulerBP::GetCurrentTime (src/tokoro.h lines 386-397): read the clock
of the given time type. -/
def Scheduler.GetCurrentTime (s : Scheduler) (timeType : Nat) : ℚ :=
  s.clockNow.getD timeType 0

/-- SchedulerBP::AddWait (src/tokoro.h lines 399-408): the execute time is 0
for a zero delay and current time plus delay otherwise; insert into the queue
of the (update-phase, clock) pair. -/
def Scheduler.AddWait (s : Scheduler) (delay : ℚ) (u t : Nat) (w : Waiter) : Scheduler :=
  let qi := typesToIndex s.timeCount u t
  let executeTime : ℚ := if delay = 0 then 0 else s.GetCurrentTime t + delay
  s.setQueue qi (((s.getQueue qi).AddTimed executeTime w).1)

/-- A run state: the scheduler plus the external counter variable captured by
the scenario coroutine bodies. -/
structure SimState where
  sched : Scheduler
  count : Nat := 0
deriving DecidableEq, Repr

/-- WaitBP::Resume (src/tokoro.h lines 520-527) followed by the coroutine
body: apply the pending increment to the external counter, then either
suspend again on the next Wait of the body (AddWait on the default phase and
clock) or run to co_return, upon which the final awaiter calls
CoroManager::OnCoroutineFinished for the root. -/
def resumeWaiter (w : Waiter) (s : SimState) : SimState :=
  let s2 : SimState := { s with count := s.count + w.incr }
  match w.rest with
  | [] =>
    { s2 with sched := { s2.sched with mgr := s2.sched.mgr.OnCoroutineFinished w.root } }
  | (d, i) :: rest =>
    { s2 with sched := s2.sched.AddWait d 0 0 ⟨w.root, i, rest⟩ }

/-- The drain loop of SchedulerBP::Update (src/tokoro.h lines 346-351): while
CheckUpdate holds, pop, resume the popped waiter, then run
StopNewFinishedCoro; fuel bounds the number of iterations. -/
def Scheduler.drainLoop (qi : Nat) : Nat → SimState → SimState
  | 0, s => s
  | fuel + 1, s =>
    let q := s.sched.getQueue qi
    if q.CheckUpdate then
      match q.Pop with
      | (some e, q2) =>
        let s1 : SimState := { s with sched := s.sched.setQueue qi q2 }
        let s2 := resumeWaiter e.waiter s1
        let s3 : SimState :=
          { s2 with sched := { s2.sched with mgr := s2.sched.mgr.StopNewFinishedCoro } }
        Scheduler.drainLoop qi fuel s3
      | (none, _) => s
    else s

/-- SchedulerBP::Update (src/tokoro.h lines 340-352): snapshot the clock into
the queue of the (update-phase, clock) pair, then drain it. -/
def Scheduler.Update (fuel : Nat) (u t : Nat) (s : SimState) : SimState :=
  let qi := typesToIndex s.sched.timeCount u t
  let q := (s.sched.getQueue qi).SetupUpdate (s.sched.GetCurrentTime t)
  Scheduler.drainLoop qi fuel { s with sched := s.sched.setQueue qi q }

/-- CoroManager::Start (src/tokoro.h lines 178-207) for a scenario body given
as (delay, increment) steps: allocate a fresh id and a default entry, then
kick the coroutine off, which runs to its first Wait suspension (on the
default phase and clock) or, for an empty body, straight to co_return. -/
def Scheduler.Start (prog : List (ℚ × Nat)) (s : SimState) : SimState × Nat :=
  let id := s.sched.mgr.mNextId
  let mgr1 := { s.sched.mgr with
    mNextId := id + 1,
    mCoroutines := s.sched.mgr.mCoroutines ++ [(id, {})] }
  let s1 : SimState := { s with sched := { s.sched with mgr := mgr1 } }
  match prog with
  | [] =>
    ({ s1 with sched := { s1.sched with mgr := s1.sched.mgr.OnCoroutineFinished id } }, id)
  | (d, i) :: rest =>
    ({ s1 with sched := s1.sched.AddWait d 0 0 ⟨id, i, rest⟩ }, id)

/-- Drop every wait record owned by the given root from one queue. This is
the per-queue effect of destroying the coroutine frame of that root: each of
its live WaitBP records holds a cursor and its destructor removes itself
(WaitBP::~WaitBP, src/tokoro.h lines 488-497). -/
def TimeQueue.removeOwned (q : TimeQueue Waiter) (id : Nat) : TimeQueue Waiter :=
  { q with
    nextList := q.nextList.filter (fun e => e.waiter.root != id),
    ready := q.ready.filter (fun e => e.waiter.root != id),
    timed := q.timed.filter (fun e => e.waiter.root != id) }

/-- CoroManager::Stop (src/tokoro.h lines 256-268) seen at the scheduler
level: the entry-flag changes together with the RAII cascade of coro.Reset(),
which destroys the frame, its children and every pending wait record they
own, removing those records from their time queues. -/
def Scheduler.Stop (s : Scheduler) (id : Nat) : Scheduler :=
  match lookupEntry s.mgr.mCoroutines id with
  | none => s
  | some e =>
    if e.running then
      { s with mgr := s.mgr.Stop id, queues := s.queues.map (fun q => q.removeOwned id) }
    else s

/-- Total number of wait records pending across all queues. -/
def Scheduler.totalQueueSize (s : Scheduler) : Nat :=
  (s.queues.map (fun q => q.pending.length)).sum

/-- Number of pending wait records owned by one root, across all queues. -/
def Scheduler.countOwned (s : Scheduler) (id : Nat) : Nat :=
  (s.queues.map (fun q => (q.pending.filter (fun e => e.waiter.root == id)).length)).sum

/-- Handle<T> (src/tokoro.h lines 56-84): the root id (0 is the sentinel of
an invalid or moved-from or forgotten handle) and whether the weak liveness
witness is engaged. The witness observes the manager: it is expired when it
was reset or when the manager has been destroyed, so the manager-alive flag
is passed to each operation. -/
structure HandleM where
  mId : Nat := 0
  hasWitness : Bool := false
deriving DecidableEq, Repr

/-- Expiry of the weak manager witness: reset, or the manager is gone. -/
def HandleM.expired (h : HandleM) (mgrAlive : Bool) : Bool :=
  !h.hasWitness || !mgrAlive

/-- Handle::Handle(Handle&&) (src/tokoro.h lines 424-431): the new handle
takes the fields; the moved-from handle gets the sentinel id 0 and a reset
witness. -/
def HandleM.moveCtor (h : HandleM) : HandleM × HandleM :=
  (⟨h.mId, h.hasWitness⟩, ⟨0, false⟩)

/-- Handle::IsDown (src/tokoro.h lines 442-446). -/
def HandleM.IsDown (h : HandleM) (mgrAlive : Bool) (m : CoroManager) : Bool :=
  h.expired mgrAlive || m.IsDown h.mId

/-- Handle::Stop (src/tokoro.h lines 448-453), at the manager level. -/
def HandleM.StopOp (h : HandleM) (mgrAlive : Bool) (m : CoroManager) : CoroManager :=
  if h.expired mgrAlive then m else m.Stop h.mId

/-- Handle::TakeResult (src/tokoro.h lines 455-471): the empty value when the
witness is expired, otherwise CoroManager::GetReturn. -/
def HandleM.TakeResult (h : HandleM) (mgrAlive : Bool) (m : CoroManager) :
    Except Nat (Option Nat) × CoroManager :=
  if h.expired mgrAlive then (.ok none, m) else m.GetReturn h.mId

/-- Handle::~Handle (src/tokoro.h lines 433-440): call Release only when the
id is not the sentinel and the witness is not expired. -/
def HandleM.dtor (h : HandleM) (mgrAlive : Bool) (m : CoroManager) : CoroManager :=
  if h.mId != 0 && !(h.expired mgrAlive) then m.Release h.mId else m

/-- What a resumed continuation hands back to the coroutine machinery: the
noop coroutine, or the handle of a coroutine to run next (identified by a
frame address). Mirrors the return type of
internal::CoroAwaiterBase::OnWaitComplete. -/
inductive Continuation where
  | noopCoroutine
  | handleOf (addr : Nat)
deriving DecidableEq, Repr

/-- RetConvert (promise.h, used by src/tokoro.h): the stored tuple slot type;
a finished void child is represented by the monostate sentinel, a value child
by its value. -/
inductive RetConvert where
  | unitSentinel
  | val (v : Nat)
deriving DecidableEq, Repr

/-- One child of an Any combinator: its frame address, whether its value type
is void, and the value its body produces. -/
structure AnyChild where
  addr : Nat
  isVoid : Bool
  value : Nat
deriving DecidableEq, Repr

/-- The result Any::await_resume stores for a finished child: the monostate
sentinel for a void child, otherwise the moved value (src/tokoro.h lines
654-664). -/
def childResult (c : AnyChild) : RetConvert :=
  if c.isVoid then .unitSentinel else .val c.value

/-- Any<Ts...> (src/tokoro.h lines 607-679): the optional child container
(reset before the parent observes the result), the address of the first
finisher, the tuple of optional results (all empty at construction), and the
parent handle. The heterogeneous tuple is modelled as a list. -/
structure AnySt where
  mWaitedCoros : Option (List AnyChild)
  mFirstFinish : Nat := 0
  mResults : List (Option RetConvert)
  mParentHandle : Nat := 0
deriving DecidableEq, Repr

/-- Any construction (src/tokoro.h lines 617-620): take the children, leave
every result slot empty. -/
def AnySt.mk0 (cs : List AnyChild) (parent : Nat) : AnySt :=
  { mWaitedCoros := some cs, mFirstFinish := 0,
    mResults := List.replicate cs.length none, mParentHandle := parent }

/-- Any::OnWaitComplete (src/tokoro.h lines 674-679): record the first
finisher and resume the parent immediately. -/
def AnySt.OnWaitComplete (st : AnySt) (h : Nat) : AnySt × Continuation :=
  ({ st with mFirstFinish := h }, .handleOf st.mParentHandle)

/-- The store pass of Any::await_resume (src/tokoro.h lines 648-668): the
slot whose child is the first finisher gets its result (monostate sentinel
for a void child), every other slot is left as it is. -/
def anyStore (ff : Nat) : List AnyChild → List (Option RetConvert) → List (Option RetConvert)
  | [], _ => []
  | _ :: _, [] => []
  | c :: cs, r :: rs =>
    (if c.addr = ff then some (childResult c) else r) :: anyStore ff cs rs

/-- Any::await_resume (src/tokoro.h lines 646-672): store the first-finisher
result, then reset the child container (destroying every other child), then
hand the results to the parent. -/
def AnySt.await_resume (st : AnySt) : AnySt × List (Option RetConvert) :=
  match st.mWaitedCoros with
  | none => (st, st.mResults)
  | some cs =>
    let newResults := anyStore st.mFirstFinish cs st.mResults
    ({ st with mResults := newResults, mWaitedCoros := none }, newResults)

/-- All<Ts...> (src/tokoro.h lines 531-603): the children are modelled by
their promise slots in argument order (a slot is filled when that child
completes), together with the remaining count and the parent handle. -/
structure AllSt where
  slots : List (Option RetConvert)
  mRemainingCount : Nat
  mParentHandle : Nat := 0
deriving DecidableEq, Repr

/-- All construction (src/tokoro.h lines 540-543): n empty promise slots and
a remaining count of n. -/
def AllSt.mk0 (n : Nat) (parent : Nat) : AllSt :=
  { slots := List.replicate n none, mRemainingCount := n, mParentHandle := parent }

/-- All::OnWaitComplete (src/tokoro.h lines 596-603): decrement the remaining
count; resume the parent when it reaches zero, else hand back the noop
coroutine. -/
def AllSt.OnWaitComplete (st : AllSt) : AllSt × Continuation :=
  let st2 := { st with mRemainingCount := st.mRemainingCount - 1 }
  (st2, if st2.mRemainingCount = 0 then .handleOf st2.mParentHandle else .noopCoroutine)

/-- Completion of child i with result r: its promise stores r, then the
parent awaiter runs All::OnWaitComplete. -/
def AllSt.finishChild (st : AllSt) (i : Nat) (r : RetConvert) : AllSt × Continuation :=
  AllSt.OnWaitComplete { st with slots := st.slots.set i (some r) }

/-- Process a sequence of child completions, collecting the continuation each
one hands back to the machinery. -/
def AllSt.processFinishes (st : AllSt) : List (Nat × RetConvert) → AllSt × List Continuation
  | [] => (st, [])
  | (i, r) :: evs =>
    let p := st.finishChild i r
    let rest := p.1.processFinishes evs
    (rest.1, p.2 :: rest.2)

/-- All::await_resume (src/tokoro.h lines 571-594): collect every child
result in argument order. -/
def AllSt.await_resume (st : AllSt) : List (Option RetConvert) :=
  st.slots

/-- A fresh scheduler with the single default (phase, clock) queue and the
default clock pinned at 0, plus the external counter. -/
def c1Init : SimState :=
  { sched := { mgr := {}, queues := [{}], clockNow := [0], timeCount := 1 }, count := 0 }

/-- The scenario of claim C1: a root whose body is
await Wait(0); count += 1; await Wait(0); count += 2, just started. -/
def c1Started : SimState :=
  (Scheduler.Start [(0, 1), (0, 2)] c1Init).1

/-- The scenario state after the first Update of the default queue. -/
def c1AfterFirst : SimState :=
  Scheduler.Update 8 0 0 c1Started

/-- The scenario state after the second Update of the default queue. -/
def c1AfterSecond : SimState :=
  Scheduler.Update 8 0 0 c1AfterFirst

/-- The scheduler-level effect of letting a live handle for the given root go
out of scope: Handle::~Handle runs and, the id being nonzero and the witness
live, calls CoroManager::Release. -/
def Scheduler.handleDrop (s : Scheduler) (id : Nat) : Scheduler :=
  { s with mgr := HandleM.dtor ⟨id, true⟩ true s.mgr }

/-- Calling Stop through the handle and then dropping a forgotten handle (a
handle whose id is the sentinel 0, so its destructor does nothing). -/
def Scheduler.stopThenDropForgotten (s : Scheduler) (id : Nat) : Scheduler :=
  let s2 := s.Stop id
  { s2 with mgr := HandleM.dtor ⟨0, true⟩ true s2.mgr }

/-- A concrete scheduler holding one still-running root (id 1) that is
suspended on one zero-delay wait in the default queue. -/
def c3Base : Scheduler :=
  { mgr := { mNextId := 2, mCoroutines := [(1, {})], mNewFinishedCoro := 0 },
    queues := [{ nextList := [⟨0, 0, ⟨1, 1, []⟩⟩], ready := [], timed := [],
                 snapNow := 0, nextSeq := 1 }],
    clockNow := [0], timeCount := 1 }

/-- A manager holding one finished root (id 1) whose entry was drained by
StopNewFinishedCoro and whose promise holds the given contents. -/
def resultMgr (r : PResult) : CoroManager :=
  { mNextId := 2,
    mCoroutines := [(1, { running := false, hasLambda := false, result := r })],
    mNewFinishedCoro := 0 }

/-- A manager holding one root (id 1) that was stopped through its handle:
the coroutine frame was destroyed by coro.Reset(). -/
def c5Stopped : CoroManager :=
  { mNextId := 2,
    mCoroutines := [(1, { running := false, hasLambda := false, coroAlive := false })],
    mNewFinishedCoro := 0 }

-- Helper lemmas about the entry map.

/-- Lookup after setEntry at the written id, provided the id was present. -/
theorem lookupEntry_setEntry_self (l : List (Nat × Entry)) (id : Nat) (e0 e : Entry)
    (h : lookupEntry l id = some e0) : lookupEntry (setEntry l id e) id = some e := by
  induction l with
  | nil => simp [lookupEntry] at h
  | cons p ps ih =>
    by_cases hp : p.1 = id
    · simp [lookupEntry, setEntry, hp]
    · simp only [lookupEntry, setEntry, hp, if_false, if_neg hp] at h ⊢
      exact ih h

/-- Lookup after eraseEntry at the erased id. -/
theorem lookupEntry_eraseEntry_self (l : List (Nat × Entry)) (id : Nat) :
    lookupEntry (eraseEntry l id) id = none := by
  induction l with
  | nil => rfl
  | cons p ps ih =>
    by_cases hp : p.1 = id
    · simpa [eraseEntry, hp] using ih
    · simp [eraseEntry, lookupEntry, hp, ih]

/-- C1: a zero-delay Wait on the current phase and clock is deferred to the
next Update of that (phase, clock) pair: AddTimed with deadline 0 only
appends to the parked nextList, Pop never returns a parked entry and leaves
nextList untouched, and only SetupUpdate, the start of the next Update,
promotes the parked entries to poppable ready entries. Concretely, for a root
whose body is await Wait(0); count += 1; await Wait(0); count += 2, the
counter is 0 after Start, 1 after the first Update and 3 after the second. -/
theorem wait_zero_defers_to_next_update
    (q : TimeQueue Waiter) (w : Waiter) (e : TQEntry Waiter) (q2 : TimeQueue Waiter)
    (now : ℚ) (hpop : q.Pop = (some e, q2)) :
    ((q.AddTimed 0 w).1.nextList = q.nextList ++ [⟨q.nextSeq, 0, w⟩] ∧
      (q.AddTimed 0 w).1.ready = q.ready ∧ (q.AddTimed 0 w).1.timed = q.timed) ∧
    (q2.nextList = q.nextList ∧ (e ∈ q.ready ∨ e ∈ q.timed)) ∧
    ((q.SetupUpdate now).ready = q.ready ++ q.nextList ∧
      (q.SetupUpdate now).nextList = []) ∧
    (c1Started.count = 0 ∧ c1AfterFirst.count = 1 ∧ c1AfterSecond.count = 3) := by
  refine ⟨⟨by simp [TimeQueue.AddTimed], by simp [TimeQueue.AddTimed],
      by simp [TimeQueue.AddTimed]⟩, ?_, ⟨rfl, rfl⟩, by decide⟩
  rcases hready : q.ready with _ | ⟨a, rest⟩
  · rcases htimed : q.timed with _ | ⟨b, rest2⟩
    · simp [TimeQueue.Pop, hready, htimed] at hpop
    · by_cases hb : b.deadline ≤ q.snapNow
      · simp only [TimeQueue.Pop, hready, htimed, if_pos hb, Prod.mk.injEq,
          Option.some.injEq] at hpop
        obtain ⟨he, hq2⟩ := hpop
        subst he; subst hq2
        exact ⟨rfl, Or.inr (List.mem_cons_self _ _)⟩
      · simp [TimeQueue.Pop, hready, htimed, hb] at hpop
  · simp only [TimeQueue.Pop, hready, Prod.mk.injEq, Option.some.injEq] at hpop
    obtain ⟨he, hq2⟩ := hpop
    subst he; subst hq2
    exact ⟨rfl, Or.inl (List.mem_cons_self _ _)⟩

/-- C1 witness: the theorem applied at a concrete queue whose Pop succeeds
discharges the hypothesis and yields the concrete scenario counts. -/
theorem wait_zero_defers_to_next_update_witness :
    c1Started.count = 0 ∧ c1AfterFirst.count = 1 ∧ c1AfterSecond.count = 3 :=
  (wait_zero_defers_to_next_update
    { nextList := [], ready := [⟨0, 0, ⟨1, 1, []⟩⟩], timed := [], snapNow := 0, nextSeq := 1 }
    ⟨1, 0, []⟩ ⟨0, 0, ⟨1, 1, []⟩⟩
    { nextList := [], ready := [], timed := [], snapNow := 0, nextSeq := 1 } 0
    (by decide)).2.2.2

/-- C10: after a move, the moved-from handle carries the sentinel id 0 and a
reset liveness witness, so IsDown reports true, Stop is a no-op, TakeResult
yields the empty value leaving the manager untouched, and the destructor does
not call Release. -/
theorem moved_from_handle_inert (h : HandleM) (mgrAlive : Bool) (m : CoroManager) :
    (h.moveCtor.2.mId = 0 ∧ h.moveCtor.2.hasWitness = false) ∧
    h.moveCtor.2.IsDown mgrAlive m = true ∧
    h.moveCtor.2.StopOp mgrAlive m = m ∧
    h.moveCtor.2.TakeResult mgrAlive m = (.ok none, m) ∧
    h.moveCtor.2.dtor mgrAlive m = m := by
  refine ⟨⟨rfl, rfl⟩, ?_, ?_, ?_, ?_⟩ <;>
    simp [HandleM.moveCtor, HandleM.IsDown, HandleM.StopOp, HandleM.TakeResult,
      HandleM.dtor, HandleM.expired]

/-- C4: taking the result of a finished root is one-shot. For a succeeded
root with value v the first TakeResult yields v and the next yields the empty
value; for a failed root the first TakeResult re-throws the captured
exception and the next yields the empty value without throwing. -/
theorem takeResult_one_shot (v err : Nat) :
    (HandleM.TakeResult ⟨1, true⟩ true (resultMgr (.value v))).1 = .ok (some v) ∧
    (HandleM.TakeResult ⟨1, true⟩ true
      (HandleM.TakeResult ⟨1, true⟩ true (resultMgr (.value v))).2).1 = .ok none ∧
    (HandleM.TakeResult ⟨1, true⟩ true (resultMgr (.error err))).1 = .error err ∧
    (HandleM.TakeResult ⟨1, true⟩ true
      (HandleM.TakeResult ⟨1, true⟩ true (resultMgr (.error err))).2).1 = .ok none :=
  ⟨rfl, rfl, rfl, rfl⟩

/-- C3 counterexample: on a scheduler holding one still-running root with one
pending wait, dropping the live handle is NOT the same as Stop followed by
dropping a forgotten handle: after the drop the root still runs and its wait
is still queued, whereas Stop would clear both. -/
theorem handleDrop_differs_from_stop :
    Scheduler.handleDrop c3Base 1 ≠ Scheduler.stopThenDropForgotten c3Base 1 ∧
    (Scheduler.handleDrop c3Base 1).mgr.IsDown 1 = false ∧
    (Scheduler.handleDrop c3Base 1).totalQueueSize = 1 ∧
    (Scheduler.stopThenDropForgotten c3Base 1).mgr.IsDown 1 = true ∧
    (Scheduler.stopThenDropForgotten c3Base 1).totalQueueSize = 0 := by
  refine ⟨by decide, by decide, by decide, by decide, by decide⟩

/-- C3 (amended): dropping a live handle that owns a still-running root does
not stop the coroutine. The destructor calls Release, which only marks the
entry released: the entry is kept, the root still reports running, and every
pending wait stays in its queue untouched. -/
theorem handleDrop_marks_released_keeps_running
    (s : Scheduler) (id : Nat) (e : Entry)
    (hid : id ≠ 0) (hl : lookupEntry s.mgr.mCoroutines id = some e)
    (hr : e.running = true) :
    (s.handleDrop id).queues = s.queues ∧
    lookupEntry (s.handleDrop id).mgr.mCoroutines id = some { e with released := true } ∧
    (s.handleDrop id).mgr.IsDown id = false := by
  have hmgr : (s.handleDrop id).mgr = s.mgr.Release id := by
    simp [Scheduler.handleDrop, HandleM.dtor, HandleM.expired, hid]
  have hrel : s.mgr.Release id =
      { s.mgr with mCoroutines := setEntry s.mgr.mCoroutines id ({ e with released := true }) } := by
    simp [CoroManager.Release, hl, hr]
  have hlook : lookupEntry (setEntry s.mgr.mCoroutines id ({ e with released := true })) id
      = some { e with released := true } :=
    lookupEntry_setEntry_self _ _ e _ hl
  refine ⟨rfl, ?_, ?_⟩
  · rw [hmgr, hrel]; exact hlook
  · rw [hmgr, hrel]
    simp only [CoroManager.IsDown, hlook]
    simp [hr]

/-- C3 amended witness: the amended statement at the concrete one-root
scheduler. -/
theorem handleDrop_marks_released_keeps_running_witness :
    (Scheduler.handleDrop c3Base 1).queues = c3Base.queues ∧
    lookupEntry (Scheduler.handleDrop c3Base 1).mgr.mCoroutines 1 =
      some { ({} : Entry) with released := true } ∧
    (Scheduler.handleDrop c3Base 1).mgr.IsDown 1 = false :=
  handleDrop_marks_released_keeps_running c3Base 1 {} (by decide) rfl rfl

/-- C5: TakeResult yields the empty value without throwing while the root is
still running or its result has already been taken (nothing is stored in the
promise), after the root was stopped (the frame was reset), and when the
manager has been destroyed (the witness is expired). -/
theorem takeResult_empty_cases
    (mR : CoroManager) (idR : Nat) (eR : Entry)
    (hR : lookupEntry mR.mCoroutines idR = some eR)
    (hRa : eR.coroAlive = true) (hRe : eR.result = PResult.pempty)
    (mS : CoroManager) (idS : Nat) (eS : Entry)
    (hS : lookupEntry mS.mCoroutines idS = some eS) (hSa : eS.coroAlive = false)
    (mD : CoroManager) (hD : HandleM) :
    (HandleM.TakeResult ⟨idR, true⟩ true mR).1 = .ok none ∧
    (HandleM.TakeResult ⟨idS, true⟩ true mS).1 = .ok none ∧
    HandleM.TakeResult hD false mD = (.ok none, mD) := by
  refine ⟨?_, ?_, ?_⟩
  · simp [HandleM.TakeResult, HandleM.expired, CoroManager.GetReturn, hR, hRa, hRe,
      PResult.GetReturnValue]
  · simp [HandleM.TakeResult, HandleM.expired, CoroManager.GetReturn, hS, hSa]
  · simp [HandleM.TakeResult, HandleM.expired]

/-- C5 witness: the three cases at concrete managers. -/
theorem takeResult_empty_cases_witness :
    (HandleM.TakeResult ⟨1, true⟩ true (resultMgr .pempty)).1 = .ok none ∧
    (HandleM.TakeResult ⟨1, true⟩ true c5Stopped).1 = .ok none ∧
    HandleM.TakeResult ⟨0, false⟩ false {} = (.ok none, {}) :=
  takeResult_empty_cases (resultMgr .pempty) 1
    { running := false, hasLambda := false, result := .pempty } rfl rfl rfl
    c5Stopped 1 { running := false, hasLambda := false, coroAlive := false } rfl rfl
    {} ⟨0, false⟩

/-- C8: the newly-finished slot discipline. A single resume fills the slot
with at most one root (it either stays empty or holds the finished root of
the resumed waiter); StopNewFinishedCoro, run between any two pops of the
drain loop, always leaves the slot empty; and draining an occupied slot
clears the running flag and the captured closure of that root, erasing the
entry iff it was already released and keeping it otherwise. -/
theorem new_finished_slot_discipline
    (m : CoroManager) (id : Nat) (e : Entry) (w : Waiter) (s : SimState)
    (hslot : m.mNewFinishedCoro = id) (hid : id ≠ 0)
    (hl : lookupEntry m.mCoroutines id = some e)
    (hs0 : s.sched.mgr.mNewFinishedCoro = 0) :
    ((resumeWaiter w s).sched.mgr.mNewFinishedCoro = 0 ∨
      (resumeWaiter w s).sched.mgr.mNewFinishedCoro = w.root) ∧
    (∀ m2 : CoroManager, m2.StopNewFinishedCoro.mNewFinishedCoro = 0) ∧
    m.StopNewFinishedCoro.mNewFinishedCoro = 0 ∧
    lookupEntry m.StopNewFinishedCoro.mCoroutines id =
      (if e.released then none
       else some { e with running := false, hasLambda := false }) := by
  have hall : ∀ m2 : CoroManager, m2.StopNewFinishedCoro.mNewFinishedCoro = 0 := by
    intro m2
    unfold CoroManager.StopNewFinishedCoro
    by_cases h0 : m2.mNewFinishedCoro = 0
    · simp [h0]
    · simp only [h0, if_false, if_neg h0]
      rcases lookupEntry m2.mCoroutines m2.mNewFinishedCoro with _ | e2
      · rfl
      · by_cases hrel : e2.released <;> simp [hrel]
  refine ⟨?_, hall, hall m, ?_⟩
  · obtain ⟨root, incr, rest⟩ := w
    rcases rest with _ | ⟨⟨d, i⟩, rest⟩
    · right; rfl
    · left
      simpa [resumeWaiter, Scheduler.AddWait, Scheduler.setQueue,
        Scheduler.getQueue] using hs0
  · unfold CoroManager.StopNewFinishedCoro
    rw [hslot, if_neg hid, hl]
    by_cases hrel : e.released
    · simp only [hrel, if_true, if_pos hrel]
      exact lookupEntry_eraseEntry_self _ _
    · simp only [hrel, if_false, if_neg hrel]
      exact lookupEntry_setEntry_self _ _ e _ hl

/-- C8 witness: a concrete manager with root 1 occupying the slot. -/
theorem new_finished_slot_discipline_witness :
    ((resumeWaiter ⟨1, 0, []⟩ c1Init).sched.mgr.mNewFinishedCoro = 0 ∨
      (resumeWaiter ⟨1, 0, []⟩ c1Init).sched.mgr.mNewFinishedCoro = 1) ∧
    (∀ m2 : CoroManager, m2.StopNewFinishedCoro.mNewFinishedCoro = 0) ∧
    (CoroManager.StopNewFinishedCoro
      { mNextId := 2, mCoroutines := [(1, {})], mNewFinishedCoro := 1 }).mNewFinishedCoro = 0 ∧
    lookupEntry (CoroManager.StopNewFinishedCoro
      { mNextId := 2, mCoroutines := [(1, {})], mNewFinishedCoro := 1 }).mCoroutines 1 =
      (if ({} : Entry).released then none
       else some { ({} : Entry) with running := false, hasLambda := false }) :=
  new_finished_slot_discipline
    { mNextId := 2, mCoroutines := [(1, {})], mNewFinishedCoro := 1 } 1 {}
    ⟨1, 0, []⟩ c1Init rfl (by decide) rfl rfl

-- Helper lemmas for the cancellation cascade (C9).

/-- Splitting a list by a Boolean predicate preserves the total length. -/
theorem length_filter_not_add {α : Type} (p : α → Bool) (l : List α) :
    (l.filter (fun a => !(p a))).length + (l.filter p).length = l.length := by
  induction l with
  | nil => rfl
  | cons a l ih => by_cases h : p a <;> simp [List.filter_cons, h] <;> omega

/-- Removing the records of one owner from a queue shrinks it by exactly the
number of its records. -/
theorem removeOwned_size (q : TimeQueue Waiter) (id : Nat) :
    (q.removeOwned id).pending.length +
      (q.pending.filter (fun e => e.waiter.root == id)).length = q.pending.length := by
  have hpend : (q.removeOwned id).pending =
      q.pending.filter (fun e => e.waiter.root != id) := by
    simp [TimeQueue.removeOwned, TimeQueue.pending, List.filter_append]
  rw [hpend]
  exact length_filter_not_add (fun e => e.waiter.root == id) q.pending

/-- The per-queue size identity summed over all queues of a scheduler. -/
theorem stop_sizes (qs : List (TimeQueue Waiter)) (id : Nat) :
    ((qs.map (fun q => q.removeOwned id)).map (fun q => q.pending.length)).sum +
      (qs.map (fun q => (q.pending.filter (fun e => e.waiter.root == id)).length)).sum =
      (qs.map (fun q => q.pending.length)).sum := by
  induction qs with
  | nil => rfl
  | cons q qs ih =>
    simp only [List.map_cons, List.sum_cons]
    have hq := removeOwned_size q id
    omega

/-- C9: stopping a running root through its handle removes exactly its K
pending wait records from the time queues (the RAII cascade of destroying the
frame), and the handle reports IsDown immediately afterwards. -/
theorem stop_removes_pending_waits
    (s : Scheduler) (id : Nat) (e : Entry)
    (hl : lookupEntry s.mgr.mCoroutines id = some e) (hr : e.running = true) :
    (s.Stop id).totalQueueSize + s.countOwned id = s.totalQueueSize ∧
    HandleM.IsDown ⟨id, true⟩ true (s.Stop id).mgr = true := by
  have hstop : s.Stop id =
      { s with mgr := s.mgr.Stop id,
               queues := s.queues.map (fun q => q.removeOwned id) } := by
    simp [Scheduler.Stop, hl, hr]
  constructor
  · rw [hstop]
    simpa [Scheduler.totalQueueSize, Scheduler.countOwned] using stop_sizes s.queues id
  · have hm : s.mgr.Stop id =
        { s.mgr with mCoroutines := (setEntry s.mgr.mCoroutines id
            { e with running := false, coroAlive := false, hasLambda := false }) } := by
      simp [CoroManager.Stop, hl, hr]
    have hlook := lookupEntry_setEntry_self s.mgr.mCoroutines id e
      { e with running := false, coroAlive := false, hasLambda := false } hl
    have hmgr2 : (s.Stop id).mgr = s.mgr.Stop id := by
      simp [Scheduler.Stop, hl, hr]
    simp only [HandleM.IsDown, HandleM.expired, hmgr2, hm]
    simp only [CoroManager.IsDown, hlook]
    simp

/-- C9 witness: the concrete one-root scheduler with one pending wait. -/
theorem stop_removes_pending_waits_witness :
    (c3Base.Stop 1).totalQueueSize + c3Base.countOwned 1 = c3Base.totalQueueSize ∧
    HandleM.IsDown ⟨1, true⟩ true (c3Base.Stop 1).mgr = true :=
  stop_removes_pending_waits c3Base 1 {} rfl rfl

-- Helper lemma for the Any combinator (C6).

/-- The store pass over empty result slots: slot j is filled iff child j is
the first finisher. -/
theorem anyStore_replicate_get? (ff : Nat) (cs : List AnyChild) (j : Nat)
    (hj : j < cs.length) :
    (anyStore ff cs (List.replicate cs.length none)).get? j =
      some (if (cs.get ⟨j, hj⟩).addr = ff then some (childResult (cs.get ⟨j, hj⟩))
            else none) := by
  induction cs generalizing j with
  | nil => exact absurd hj (by simp)
  | cons c cs ih =>
    cases j with
    | zero => simp [anyStore, List.replicate_succ]
    | succ j =>
      have hj2 : j < cs.length := by simpa using hj
      simpa [anyStore, List.replicate_succ] using ih j hj2

/-- C6: Any resumes the parent as soon as the first child completes; at the
parent's resume the result tuple holds exactly one populated entry, the one
of the first finisher (the unit sentinel if that child has void type), every
other entry is empty, and the child container was reset (destroying all the
other children) before the parent observes the result. -/
theorem any_first_finisher_result
    (cs : List AnyChild) (parent k : Nat) (hk : k < cs.length)
    (hnd : cs.Pairwise (fun a b => a.addr ≠ b.addr)) :
    ((AnySt.mk0 cs parent).OnWaitComplete ((cs.get ⟨k, hk⟩).addr)).2 =
      Continuation.handleOf parent ∧
    (((AnySt.mk0 cs parent).OnWaitComplete ((cs.get ⟨k, hk⟩).addr)).1.await_resume).1.mWaitedCoros
      = none ∧
    (((AnySt.mk0 cs parent).OnWaitComplete ((cs.get ⟨k, hk⟩).addr)).1.await_resume).2.get? k
      = some (some (childResult (cs.get ⟨k, hk⟩))) ∧
    ∀ j, (hj : j < cs.length) → j ≠ k →
      (((AnySt.mk0 cs parent).OnWaitComplete ((cs.get ⟨k, hk⟩).addr)).1.await_resume).2.get? j
        = some none := by
  have hres : (((AnySt.mk0 cs parent).OnWaitComplete ((cs.get ⟨k, hk⟩).addr)).1.await_resume).2
      = anyStore ((cs.get ⟨k, hk⟩).addr) cs (List.replicate cs.length none) := rfl
  refine ⟨rfl, rfl, ?_, ?_⟩
  · rw [hres, anyStore_replicate_get? _ _ k hk]
    simp
  · intro j hj hne
    have haddr : (cs.get ⟨j, hj⟩).addr ≠ (cs.get ⟨k, hk⟩).addr := by
      rcases Nat.lt_or_ge j k with hlt | hge
      · exact List.pairwise_iff_get.mp hnd ⟨j, hj⟩ ⟨k, hk⟩ (Fin.mk_lt_mk.mpr hlt)
      · have hkj : k < j := Nat.lt_of_le_of_ne hge (fun h => hne h.symm)
        exact (List.pairwise_iff_get.mp hnd ⟨k, hk⟩ ⟨j, hj⟩ (Fin.mk_lt_mk.mpr hkj)).symm
    rw [hres, anyStore_replicate_get? _ _ j hj, if_neg haddr]

/-- C6 witness: two children with distinct addresses, the second (void)
finishing first. -/
theorem any_first_finisher_result_witness :
    ((AnySt.mk0 [⟨10, false, 7⟩, ⟨20, true, 0⟩] 5).OnWaitComplete
        (([⟨10, false, 7⟩, ⟨20, true, 0⟩] : List AnyChild).get ⟨1, by decide⟩).addr).2 =
      Continuation.handleOf 5 ∧
    (((AnySt.mk0 [⟨10, false, 7⟩, ⟨20, true, 0⟩] 5).OnWaitComplete
        (([⟨10, false, 7⟩, ⟨20, true, 0⟩] : List AnyChild).get ⟨1, by decide⟩).addr).1.await_resume).1.mWaitedCoros
      = none ∧
    (((AnySt.mk0 [⟨10, false, 7⟩, ⟨20, true, 0⟩] 5).OnWaitComplete
        (([⟨10, false, 7⟩, ⟨20, true, 0⟩] : List AnyChild).get ⟨1, by decide⟩).addr).1.await_resume).2.get? 1
      = some (some (childResult (([⟨10, false, 7⟩, ⟨20, true, 0⟩] : List AnyChild).get ⟨1, by decide⟩))) ∧
    ∀ j, (hj : j < ([⟨10, false, 7⟩, ⟨20, true, 0⟩] : List AnyChild).length) → j ≠ 1 →
      (((AnySt.mk0 [⟨10, false, 7⟩, ⟨20, true, 0⟩] 5).OnWaitComplete
          (([⟨10, false, 7⟩, ⟨20, true, 0⟩] : List AnyChild).get ⟨1, by decide⟩).addr).1.await_resume).2.get? j
        = some none :=
  any_first_finisher_result [⟨10, false, 7⟩, ⟨20, true, 0⟩] 5 1 (by decide)
    (by simp)

-- Helper lemmas for the All combinator (C7).

/-- Folding completions never touches a slot whose index is absent from the
completion order. -/
theorem foldl_set_not_mem (v : Nat → RetConvert) (order : List Nat)
    (sl : List (Option RetConvert)) (j : Nat) (hj : j ∉ order) :
    (order.foldl (fun s i => s.set i (some (v i))) sl).get? j = sl.get? j := by
  induction order generalizing sl with
  | nil => rfl
  | cons i rest ih =>
    have hji : i ≠ j := by
      intro h
      exact hj (h ▸ List.mem_cons_self i rest)
    rw [List.foldl_cons, ih (sl.set i (some (v i))) (fun h => hj (List.mem_cons_of_mem i h))]
    exact List.get?_set_ne (some (v i)) sl hji

/-- A slot whose index occurs in the completion order ends up holding the
value of that child, whatever the order. -/
theorem foldl_set_mem (v : Nat → RetConvert) (order : List Nat)
    (sl : List (Option RetConvert)) (j : Nat) (hc : j ∈ order) (hj : j < sl.length) :
    (order.foldl (fun s i => s.set i (some (v i))) sl).get? j = some (some (v j)) := by
  induction order generalizing sl with
  | nil => simp at hc
  | cons i rest ih =>
    rw [List.foldl_cons]
    by_cases hr : j ∈ rest
    · exact ih (sl.set i (some (v i))) hr (by simpa using hj)
    · have hji : j = i := by
        rcases List.mem_cons.mp hc with h | h
        · exact h
        · exact absurd h hr
      subst hji
      rw [foldl_set_not_mem v rest _ j hr]
      exact List.get?_set_eq_of_lt _ hj

/-- Folding completions preserves the number of slots. -/
theorem foldl_set_length (v : Nat → RetConvert) (order : List Nat)
    (sl : List (Option RetConvert)) :
    (order.foldl (fun s i => s.set i (some (v i))) sl).length = sl.length := by
  induction order generalizing sl with
  | nil => rfl
  | cons i rest ih => rw [List.foldl_cons, ih]; simp

/-- Processing completions writes each completed child into its own slot. -/
theorem processFinishes_slots (evs : List (Nat × RetConvert)) (st : AllSt) :
    (st.processFinishes evs).1.slots =
      evs.foldl (fun sl p => sl.set p.1 (some p.2)) st.slots := by
  induction evs generalizing st with
  | nil => rfl
  | cons ev evs ih =>
    obtain ⟨i, r⟩ := ev
    simp only [AllSt.processFinishes, AllSt.finishChild, AllSt.OnWaitComplete,
      List.foldl_cons]
    rw [ih]

/-- Processing completions keeps the parent handle. -/
theorem processFinishes_parent (evs : List (Nat × RetConvert)) (st : AllSt) :
    (st.processFinishes evs).1.mParentHandle = st.mParentHandle := by
  induction evs generalizing st with
  | nil => rfl
  | cons ev evs ih =>
    obtain ⟨i, r⟩ := ev
    simp only [AllSt.processFinishes, AllSt.finishChild, AllSt.OnWaitComplete]
    rw [ih]

/-- When the remaining count equals the number of completions, every
completion but the last hands back the noop coroutine and the last hands back
the parent handle. -/
theorem processFinishes_conts (evs : List (Nat × RetConvert)) (st : AllSt)
    (hrem : st.mRemainingCount = evs.length) (hne : evs ≠ []) :
    (st.processFinishes evs).2 =
      List.replicate (evs.length - 1) Continuation.noopCoroutine ++
        [Continuation.handleOf st.mParentHandle] := by
  induction evs generalizing st with
  | nil => exact absurd rfl hne
  | cons ev evs ih =>
    obtain ⟨i, r⟩ := ev
    rcases hevs : evs with _ | ⟨ev2, evs2⟩
    · subst hevs
      simp [AllSt.processFinishes, AllSt.finishChild, AllSt.OnWaitComplete, hrem]
    · subst hevs
      have hlen : st.mRemainingCount = evs2.length + 2 := by simpa using hrem
      have hcont : st.mRemainingCount - 1 ≠ 0 := by omega
      have hstep : st.processFinishes ((i, r) :: ev2 :: evs2) =
          (((st.finishChild i r).1.processFinishes (ev2 :: evs2)).1,
            (st.finishChild i r).2 ::
              ((st.finishChild i r).1.processFinishes (ev2 :: evs2)).2) := rfl
      have hfin1 : (st.finishChild i r).1 = { st with
          slots := st.slots.set i (some r),
          mRemainingCount := st.mRemainingCount - 1 } := rfl
      have hrec := ih ((st.finishChild i r).1) (by rw [hfin1]; simp [hlen]) (by simp)
      have hfin2 : (st.finishChild i r).2 = Continuation.noopCoroutine := by
        simp [AllSt.finishChild, AllSt.OnWaitComplete, hcont]
      rw [hstep]
      simp only [hrec, hfin2]
      simp [hfin1, List.replicate_succ]

/-- C7: All resumes the parent exactly when the last remaining child
completes: every completion but the last hands the machinery the noop
coroutine and the last hands it the parent handle; and the collected tuple
holds each child's result in argument order, whatever order the children
finished in. -/
theorem all_last_child_resumes_parent
    (n parent : Nat) (v : Nat → RetConvert) (order : List Nat)
    (hn : 0 < n) (hlen : order.length = n) (hcov : ∀ j, j < n → j ∈ order) :
    ((AllSt.mk0 n parent).processFinishes (order.map (fun i => (i, v i)))).2 =
      List.replicate (n - 1) Continuation.noopCoroutine ++
        [Continuation.handleOf parent] ∧
    ((AllSt.mk0 n parent).processFinishes (order.map (fun i => (i, v i)))).1.await_resume =
      (List.range n).map (fun j => some (v j)) := by
  constructor
  · have hne : order.map (fun i => (i, v i)) ≠ [] := by
      intro h
      have h0 : n = 0 := by simpa [hlen] using congrArg List.length h
      omega
    have := processFinishes_conts (order.map (fun i => (i, v i))) (AllSt.mk0 n parent)
      (by simp [AllSt.mk0, hlen]) hne
    simpa [AllSt.mk0, hlen] using this
  · rw [AllSt.await_resume, processFinishes_slots, List.foldl_map]
    refine List.ext_get?_iff.mpr (fun j => ?_)
    by_cases hj : j < n
    · rw [foldl_set_mem v order _ j (hcov j hj) (by simpa [AllSt.mk0] using hj)]
      rw [List.get?_map, List.get?_range hj]
      rfl
    · have h1 : (order.foldl (fun s i => s.set i (some (v i)))
          (AllSt.mk0 n parent).slots).get? j = none := by
        refine List.get?_eq_none.mpr ?_
        rw [foldl_set_length]
        simp [AllSt.mk0]
        omega
      have h2 : (((List.range n).map (fun j => some (v j))).get? j) = none := by
        refine List.get?_eq_none.mpr ?_
        simp
        omega
      rw [h1, h2]

/-- C7 witness: three children finishing in the order 2, 0, 1. -/
theorem all_last_child_resumes_parent_witness :
    ((AllSt.mk0 3 9).processFinishes
        (([2, 0, 1] : List Nat).map (fun i => (i, RetConvert.val i)))).2 =
      List.replicate 2 Continuation.noopCoroutine ++ [Continuation.handleOf 9] ∧
    ((AllSt.mk0 3 9).processFinishes
        (([2, 0, 1] : List Nat).map (fun i => (i, RetConvert.val i)))).1.await_resume =
      (List.range 3).map (fun j => some (RetConvert.val j)) :=
  all_last_child_resumes_parent 3 9 (fun i => RetConvert.val i) [2, 0, 1]
    (by decide) (by decide) (by decide)

-- Helper lemmas for the queue discipline (C2).

/-- Membership through the ordered insert. -/
theorem mem_insertTimed {α : Type} (e a : TQEntry α) (l : List (TQEntry α)) :
    a ∈ insertTimed e l ↔ a = e ∨ a ∈ l := by
  induction l with
  | nil => simp [insertTimed]
  | cons x xs ih =>
    by_cases h : e.deadline < x.deadline
    · simp [insertTimed, h]
    · simp [insertTimed, h, ih]
      tauto

/-- The ordered insert is a permutation of consing. -/
theorem perm_insertTimed {α : Type} (e : TQEntry α) (l : List (TQEntry α)) :
    (insertTimed e l).Perm (e :: l) := by
  induction l with
  | nil => simp [insertTimed]
  | cons x xs ih =>
    by_cases h : e.deadline < x.deadline
    · simp [insertTimed, h]
    · rw [show insertTimed e (x :: xs) = x :: insertTimed e xs from by simp [insertTimed, h]]
      exact (ih.cons x).trans (List.Perm.swap e x xs)

/-- The ordered insert keeps the timed multiset sorted by drain precedence,
provided the new entry carries a fresh (largest) seq. -/
theorem pairwise_insertTimed {α : Type} (e : TQEntry α) (l : List (TQEntry α))
    (hl : l.Pairwise entBefore) (hseq : ∀ x ∈ l, x.seq < e.seq) :
    (insertTimed e l).Pairwise entBefore := by
  induction l with
  | nil => simp [insertTimed, List.pairwise_cons]
  | cons x xs ih =>
    rcases List.pairwise_cons.mp hl with ⟨hx, hxs⟩
    by_cases h : e.deadline < x.deadline
    · rw [show insertTimed e (x :: xs) = e :: x :: xs from by simp [insertTimed, h]]
      refine List.pairwise_cons.mpr ⟨?_, hl⟩
      intro y hy
      rcases List.mem_cons.mp hy with rfl | hy2
      · exact Or.inl h
      · rcases hx y hy2 with hlt | ⟨heq, _⟩
        · exact Or.inl (lt_trans h hlt)
        · exact Or.inl (heq ▸ h)
    · rw [show insertTimed e (x :: xs) = x :: insertTimed e xs from by simp [insertTimed, h]]
      refine List.pairwise_cons.mpr
        ⟨?_, ih hxs (fun y hy => hseq y (List.mem_cons_of_mem x hy))⟩
      intro y hy
      rcases (mem_insertTimed e y xs).mp hy with rfl | hy2
      · rcases lt_or_eq_of_le (not_lt.mp h) with hlt | heq
        · exact Or.inl hlt
        · exact Or.inr ⟨heq, hseq x (List.mem_cons_self x xs)⟩
      · exact hx y hy2

/-- A list of zero-deadline entries sorted by seq is sorted by drain
precedence. -/
theorem pairwise_entBefore_of_zero {α : Type} (l : List (TQEntry α))
    (hz : ∀ e ∈ l, e.deadline = 0)
    (hs : l.Pairwise (fun a b => a.seq < b.seq)) : l.Pairwise entBefore := by
  induction l with
  | nil => simp
  | cons x xs ih =>
    rcases List.pairwise_cons.mp hs with ⟨hx, hxs⟩
    refine List.pairwise_cons.mpr
      ⟨?_, ih (fun e he => hz e (List.mem_cons_of_mem x he)) hxs⟩
    intro y hy
    refine Or.inr ⟨?_, hx y hy⟩
    rw [hz x (List.mem_cons_self x xs), hz y (List.mem_cons_of_mem x hy)]

/-- The empty queue is well formed. -/
theorem tqwf_empty {α : Type} : TQWF ({} : TimeQueue α) := by
  constructor <;> simp

/-- AddTimed preserves the building-phase invariants. -/
theorem tqwf_addTimed {α : Type} (q : TimeQueue α) (d : ℚ) (w : α) (hq : TQWF q) :
    TQWF (q.AddTimed d w).1 := by
  rcases eq_or_ne d 0 with rfl | hd
  · have hq1 : (q.AddTimed 0 w).1 = { q with
        nextList := q.nextList ++ [⟨q.nextSeq, 0, w⟩], nextSeq := q.nextSeq + 1 } := by
      simp [TimeQueue.AddTimed]
    rw [hq1]
    refine ⟨hq.ready_nil, ?_, ?_, hq.timed_sorted, hq.timed_ne, ?_, ?_⟩
    · intro x hx
      rcases List.mem_append.mp hx with h | h
      · exact hq.next_zero x h
      · rw [List.mem_singleton.mp h]
    · refine List.pairwise_append.mpr ⟨hq.next_sorted, by simp, ?_⟩
      intro a ha b hb
      rw [List.mem_singleton.mp hb]
      exact hq.seq_next a ha
    · intro x hx
      rcases List.mem_append.mp hx with h | h
      · exact Nat.lt_succ_of_lt (hq.seq_next x h)
      · rw [List.mem_singleton.mp h]
        exact Nat.lt_succ_self _
    · intro x hx
      exact Nat.lt_succ_of_lt (hq.seq_timed x hx)
  · have hq1 : (q.AddTimed d w).1 = { q with
        timed := insertTimed ⟨q.nextSeq, d, w⟩ q.timed, nextSeq := q.nextSeq + 1 } := by
      simp [TimeQueue.AddTimed, hd]
    rw [hq1]
    refine ⟨hq.ready_nil, hq.next_zero, hq.next_sorted, ?_, ?_, ?_, ?_⟩
    · exact pairwise_insertTimed _ _ hq.timed_sorted (fun x hx => hq.seq_timed x hx)
    · intro x hx
      rcases (mem_insertTimed _ x _).mp hx with rfl | h
      · exact hd
      · exact hq.timed_ne x h
    · intro x hx
      exact Nat.lt_succ_of_lt (hq.seq_next x hx)
    · intro x hx
      rcases (mem_insertTimed _ x _).mp hx with rfl | h
      · exact Nat.lt_succ_self _
      · exact Nat.lt_succ_of_lt (hq.seq_timed x h)

/-- AddAll preserves the building-phase invariants. -/
theorem tqwf_addAll {α : Type} (q : TimeQueue α) (adds : List (ℚ × α)) (hq : TQWF q) :
    TQWF (q.AddAll adds) := by
  induction adds generalizing q with
  | nil => exact hq
  | cons p ps ih => exact ih _ (tqwf_addTimed q p.1 p.2 hq)

/-- One insertion adds exactly its tagged entry to the stored multiset. -/
theorem pending_addTimed_perm {α : Type} (q : TimeQueue α) (d : ℚ) (w : α) :
    ((q.AddTimed d w).1.pending).Perm (⟨q.nextSeq, d, w⟩ :: q.pending) := by
  rcases eq_or_ne d 0 with rfl | hd
  · have hq1 : (q.AddTimed 0 w).1 = { q with
        nextList := q.nextList ++ [⟨q.nextSeq, 0, w⟩], nextSeq := q.nextSeq + 1 } := by
      simp [TimeQueue.AddTimed]
    rw [hq1]
    simp only [TimeQueue.pending, List.append_assoc, List.singleton_append]
    exact List.perm_middle
  · have hq1 : (q.AddTimed d w).1 = { q with
        timed := insertTimed ⟨q.nextSeq, d, w⟩ q.timed, nextSeq := q.nextSeq + 1 } := by
      simp [TimeQueue.AddTimed, hd]
    rw [hq1]
    simp only [TimeQueue.pending]
    exact (List.Perm.append_left _ (perm_insertTimed _ _)).trans List.perm_middle

/-- The insertion counter advances by one on every AddTimed. -/
theorem nextSeq_addTimed {α : Type} (q : TimeQueue α) (d : ℚ) (w : α) :
    (q.AddTimed d w).1.nextSeq = q.nextSeq + 1 := by
  unfold TimeQueue.AddTimed
  split <;> rfl

/-- A sequence of insertions adds exactly its tagged entries to the stored
multiset. -/
theorem pending_addAll_perm {α : Type} (q : TimeQueue α) (adds : List (ℚ × α)) :
    ((q.AddAll adds).pending).Perm (q.pending ++ taggedFrom q.nextSeq adds) := by
  induction adds generalizing q with
  | nil => simp [TimeQueue.AddAll, taggedFrom]
  | cons p ps ih =>
    have h1 : q.AddAll (p :: ps) = ((q.AddTimed p.1 p.2).1).AddAll ps := rfl
    rw [h1]
    have h2 := ih ((q.AddTimed p.1 p.2).1)
    rw [nextSeq_addTimed] at h2
    have h3 := (pending_addTimed_perm q p.1 p.2).append_right
      (taggedFrom (q.nextSeq + 1) ps)
    have h4 : ((⟨q.nextSeq, p.1, p.2⟩ :: q.pending) ++
        taggedFrom (q.nextSeq + 1) ps).Perm
        (q.pending ++ taggedFrom q.nextSeq (p :: ps)) := by
      rw [show taggedFrom q.nextSeq (p :: ps)
          = ⟨q.nextSeq, p.1, p.2⟩ :: taggedFrom (q.nextSeq + 1) ps from rfl]
      simp only [List.cons_append]
      exact List.perm_middle.symm
    exact h2.trans (h3.trans h4)

/-- Every tagged entry carries the (deadline, waiter) pair of one of the
insertions. -/
theorem mem_taggedFrom {α : Type} (n : Nat) (ps : List (ℚ × α)) (e : TQEntry α)
    (h : e ∈ taggedFrom n ps) : (e.deadline, e.waiter) ∈ ps := by
  induction ps generalizing n with
  | nil => simp [taggedFrom] at h
  | cons p ps ih =>
    rcases List.mem_cons.mp h with rfl | h2
    · simp
    · exact List.mem_cons_of_mem _ (ih (n + 1) h2)

/-- Tagging preserves the number of insertions. -/
theorem length_taggedFrom {α : Type} (n : Nat) (ps : List (ℚ × α)) :
    (taggedFrom n ps).length = ps.length := by
  induction ps generalizing n with
  | nil => rfl
  | cons p ps ih => simp [taggedFrom, ih]

/-- When every timed entry is due at the snapshot and the fuel covers the
queue, the drain pops the promoted entries in order and then the whole timed
multiset in order. -/
theorem drainList_all_due {α : Type} (fuel : Nat) (q : TimeQueue α)
    (hdue : ∀ e ∈ q.timed, e.deadline ≤ q.snapNow)
    (hfuel : q.ready.length + q.timed.length ≤ fuel) :
    TimeQueue.drainList fuel q = q.ready ++ q.timed := by
  induction fuel generalizing q with
  | zero =>
    have hr : q.ready.length = 0 := by omega
    have ht : q.timed.length = 0 := by omega
    rw [List.length_eq_zero.mp hr, List.length_eq_zero.mp ht]
    rfl
  | succ fuel ih =>
    rcases hready : q.ready with _ | ⟨a, rest⟩
    · rcases htimed : q.timed with _ | ⟨b, rest2⟩
      · have hcheck : q.CheckUpdate = false := by
          simp [TimeQueue.CheckUpdate, hready, htimed]
        simp [TimeQueue.drainList, hcheck]
      · have hb : b.deadline ≤ q.snapNow :=
          hdue b (by rw [htimed]; exact List.mem_cons_self _ _)
        have hcheck : q.CheckUpdate = true := by
          simp [TimeQueue.CheckUpdate, hready, htimed, hb]
        have hpop : q.Pop = (some b, { q with timed := rest2 }) := by
          simp [TimeQueue.Pop, hready, htimed, hb]
        simp only [TimeQueue.drainList, hcheck, hpop, if_true]
        have hfuel2 : q.ready.length + rest2.length ≤ fuel := by
          rw [htimed] at hfuel
          simp at hfuel
          omega
        have hdue2 : ∀ e ∈ rest2, e.deadline ≤ q.snapNow := by
          intro e he
          exact hdue e (by rw [htimed]; exact List.mem_cons_of_mem b he)
        rw [ih { q with timed := rest2 } hdue2 hfuel2]
        simp [hready]
    · have hcheck : q.CheckUpdate = true := by
        simp [TimeQueue.CheckUpdate, hready]
      have hpop : q.Pop = (some a, { q with ready := rest }) := by
        simp [TimeQueue.Pop, hready]
      simp only [TimeQueue.drainList, hcheck, hpop, if_true]
      have hfuel2 : rest.length + q.timed.length ≤ fuel := by
        rw [hready] at hfuel
        simp at hfuel
        omega
      rw [ih { q with ready := rest } hdue hfuel2]
      simp

/-- C2: a single Update past every deadline resumes all the waiters pending
in one (phase, clock) queue exactly once, in ascending deadline order, and
waiters with equal deadlines in their insertion (FIFO) order: the pop
sequence is a permutation of the inserted waiters tagged with their insertion
index, and it is sorted by (deadline, insertion index). -/
theorem update_drains_in_deadline_order {α : Type}
    (adds : List (ℚ × α)) (now : ℚ) (fuel : Nat)
    (hpos : ∀ p ∈ adds, 0 ≤ p.1)
    (hdue : ∀ p ∈ adds, p.1 ≤ now)
    (hfuel : adds.length ≤ fuel) :
    (TimeQueue.drainList fuel
        ((TimeQueue.AddAll {} adds).SetupUpdate now)).Perm (taggedFrom 0 adds) ∧
    (TimeQueue.drainList fuel
        ((TimeQueue.AddAll {} adds).SetupUpdate now)).Pairwise entBefore := by
  have hwf : TQWF (TimeQueue.AddAll ({} : TimeQueue α) adds) :=
    tqwf_addAll _ _ tqwf_empty
  have hperm0 : (TimeQueue.AddAll ({} : TimeQueue α) adds).pending.Perm
      (taggedFrom 0 adds) := by
    have h := pending_addAll_perm ({} : TimeQueue α) adds
    simpa [TimeQueue.pending] using h
  have hmem : ∀ e ∈ (TimeQueue.AddAll ({} : TimeQueue α) adds).pending,
      (e.deadline, e.waiter) ∈ adds :=
    fun e he => mem_taggedFrom 0 adds e (hperm0.mem_iff.mp he)
  have hpend_eq : (TimeQueue.AddAll ({} : TimeQueue α) adds).pending
      = (TimeQueue.AddAll ({} : TimeQueue α) adds).nextList
        ++ (TimeQueue.AddAll ({} : TimeQueue α) adds).timed := by
    unfold TimeQueue.pending
    rw [hwf.ready_nil]
    simp
  have hq1ready : ((TimeQueue.AddAll ({} : TimeQueue α) adds).SetupUpdate now).ready
      = (TimeQueue.AddAll ({} : TimeQueue α) adds).nextList := by
    simp [TimeQueue.SetupUpdate, hwf.ready_nil]
  have htdue : ∀ e ∈ ((TimeQueue.AddAll ({} : TimeQueue α) adds).SetupUpdate now).timed,
      e.deadline ≤ ((TimeQueue.AddAll ({} : TimeQueue α) adds).SetupUpdate now).snapNow := by
    intro e he
    have hin : (e.deadline, e.waiter) ∈ adds := by
      refine hmem e ?_
      rw [hpend_eq]
      exact List.mem_append.mpr (Or.inr he)
    exact hdue _ hin
  have hplen : (TimeQueue.AddAll ({} : TimeQueue α) adds).pending.length
      = adds.length := by
    rw [hperm0.length_eq, length_taggedFrom]
  have hlen : ((TimeQueue.AddAll ({} : TimeQueue α) adds).SetupUpdate now).ready.length
      + ((TimeQueue.AddAll ({} : TimeQueue α) adds).SetupUpdate now).timed.length
      ≤ fuel := by
    rw [hq1ready]
    have h2 : (TimeQueue.AddAll ({} : TimeQueue α) adds).nextList.length
        + (TimeQueue.AddAll ({} : TimeQueue α) adds).timed.length
        = (TimeQueue.AddAll ({} : TimeQueue α) adds).pending.length := by
      rw [hpend_eq, List.length_append]
    have h3 : ((TimeQueue.AddAll ({} : TimeQueue α) adds).SetupUpdate now).timed
        = (TimeQueue.AddAll ({} : TimeQueue α) adds).timed := rfl
    rw [h3]
    omega
  have hdrain := drainList_all_due fuel
    ((TimeQueue.AddAll ({} : TimeQueue α) adds).SetupUpdate now) htdue hlen
  constructor
  · rw [hdrain, hq1ready]
    rw [show ((TimeQueue.AddAll ({} : TimeQueue α) adds).SetupUpdate now).timed
      = (TimeQueue.AddAll ({} : TimeQueue α) adds).timed from rfl]
    rw [← hpend_eq]
    exact hperm0
  · rw [hdrain, hq1ready]
    rw [show ((TimeQueue.AddAll ({} : TimeQueue α) adds).SetupUpdate now).timed
      = (TimeQueue.AddAll ({} : TimeQueue α) adds).timed from rfl]
    refine List.pairwise_append.mpr
      ⟨pairwise_entBefore_of_zero _ hwf.next_zero hwf.next_sorted,
        hwf.timed_sorted, ?_⟩
    intro a ha b hb
    have haz : a.deadline = 0 := hwf.next_zero a ha
    have hbne : b.deadline ≠ 0 := hwf.timed_ne b hb
    have hbpos : 0 ≤ b.deadline := by
      have hin : (b.deadline, b.waiter) ∈ adds := by
        refine hmem b ?_
        rw [hpend_eq]
        exact List.mem_append.mpr (Or.inr hb)
      exact hpos _ hin
    refine Or.inl ?_
    rw [haz]
    exact lt_of_le_of_ne hbpos (Ne.symm hbne)

/-- C2 witness: three waiters with deadlines 2, 0 and 1, inserted in that
order, drained by one pass at snapshot 2. -/
theorem update_drains_in_deadline_order_witness :
    (TimeQueue.drainList 3
        ((TimeQueue.AddAll ({} : TimeQueue Nat)
          [(2, 0), (0, 1), (1, 2)]).SetupUpdate 2)).Perm
      (taggedFrom 0 [(2, 0), (0, 1), (1, 2)]) ∧
    (TimeQueue.drainList 3
        ((TimeQueue.AddAll ({} : TimeQueue Nat)
          [(2, 0), (0, 1), (1, 2)]).SetupUpdate 2)).Pairwise entBefore :=
  update_drains_in_deadline_order [(2, 0), (0, 1), (1, 2)] 2 3
    (by decide) (by decide) (by decide)

end Tokoro
